import Mathlib

/-!
Verification development for the autoemulate model-comparison core.

The repository snapshot contains the notebooks and project configuration of
the package; the library modules themselves (autoemulate.core.compare,
autoemulate.transforms.base, autoemulate.core.model_selection,
autoemulate.emulators.transformed.base) are not part of the snapshot, so the
definitions below are shallow embeddings modelled from the specification
document, with names kept close to the library API that the notebooks call.
Scalars are rational numbers; machine floats are modelled exactly.
-/

namespace AutoEmulateSpec

/-! ## Evaluation / Metrics

Modelled from the spec: the module autoemulate.core.model_selection with
evaluate, r2_metric and rmse_metric is missing from the snapshot.  The spec
defines R squared as 1 - SS_res/SS_tot, defined as 0 when SS_tot is 0, and
RMSE as the lower-is-better error; multi-output targets are reduced by
unweighted mean.  rmse_metric is modelled as the mean squared error (the
square of the RMSE): rationals have no square root and squaring is a
monotone change of scale that affects no ordering or tie property. -/

/-- Arithmetic mean of a list of rationals (0 on the empty list). -/
def mean (xs : List ℚ) : ℚ := xs.sum / (xs.length : ℚ)

/-- Residual sum of squares between predictions and ground truth. -/
def ss_res (pred actual : List ℚ) : ℚ :=
  ((pred.zip actual).map (fun pa => (pa.1 - pa.2) ^ 2)).sum

/-- Total sum of squares of the ground truth around its mean. -/
def ss_tot (actual : List ℚ) : ℚ :=
  (actual.map (fun a => (a - mean actual) ^ 2)).sum

/-- Coefficient of determination, defined as 0 when SS_tot is 0. -/
def r2_metric (pred actual : List ℚ) : ℚ :=
  if ss_tot actual = 0 then 0 else 1 - ss_res pred actual / ss_tot actual

/-- Mean squared error (the squared RMSE; see the section comment). -/
def rmse_metric (pred actual : List ℚ) : ℚ :=
  ss_res pred actual / ((actual.length : ℚ))

/-- Apply a scoring function to predictions and ground truth. -/
def evaluate (pred actual : List ℚ) (metric : List ℚ → List ℚ → ℚ) : ℚ :=
  metric pred actual

/-- Multi-output reduction: per-target scores reduced by unweighted mean. -/
def r2_multioutput (preds actuals : List (List ℚ)) : ℚ :=
  mean ((preds.zip actuals).map (fun z => r2_metric z.1 z.2))

lemma ss_res_self (a : List ℚ) : ss_res a a = 0 := by
  induction a with
  | nil => rfl
  | cons x xs ih =>
      simp [ss_res, List.zip_cons_cons] at ih ⊢
      simpa [ss_res] using ih

lemma ss_res_const_mean (a : List ℚ) :
    ss_res (a.map (fun _ => mean a)) a = ss_tot a := by
  unfold ss_res ss_tot
  generalize mean a = c
  induction a with
  | nil => rfl
  | cons x xs ih =>
      simp [List.zip_cons_cons, List.map_const] at ih ⊢
      rw [ih]; ring

lemma r2_metric_self (a : List ℚ) (h : ss_tot a ≠ 0) : r2_metric a a = 1 := by
  simp [r2_metric, h, ss_res_self]

/-- C9 counterexample: the claim asserts that R squared returns 1.0 whenever
predicted equals actual element-wise, but on a constant ground truth the
SS_tot = 0 edge rule (also part of the claim) makes the metric return 0, so
the unrestricted perfect-predictor conjunct is false at predicted = actual =
[1, 1]. -/
theorem r2_perfect_predictor_claim_false :
    ¬ (∀ a : List ℚ, r2_metric a a = 1) := by
  intro h
  have h1 := h [1, 1]
  have h0 : r2_metric [1, 1] [1, 1] = 0 := by
    norm_num [r2_metric, ss_tot, ss_res, mean]
  rw [h0] at h1
  exact absurd h1 (by norm_num)

/-- C9 (amended): R squared returns 1 on a perfect predictor whenever
SS_tot is nonzero, returns 0 on the constant predictor equal to the mean of
the ground truth, is defined as 0 whenever SS_tot is 0, and multi-output
targets are reduced by the unweighted mean of the per-target scores. -/
theorem r2_metric_properties (a : List ℚ) (h : ss_tot a ≠ 0)
    (ps as : List (List ℚ)) :
    r2_metric a a = 1 ∧
    r2_metric (a.map (fun _ => mean a)) a = 0 ∧
    (∀ p b : List ℚ, ss_tot b = 0 → r2_metric p b = 0) ∧
    r2_multioutput ps as =
      mean ((ps.zip as).map (fun z => r2_metric z.1 z.2)) := by
  refine ⟨r2_metric_self a h, ?_, ?_, rfl⟩
  · unfold r2_metric
    rw [if_neg h, ss_res_const_mean, div_self h]
    norm_num
  · intro p b hb
    simp [r2_metric, hb]

/-- C9 witness: the amended properties instantiated at a ground truth with
nonzero SS_tot. -/
theorem r2_metric_properties_witness :
    r2_metric [0, 1] [0, 1] = 1 ∧
    r2_metric ([0, 1].map (fun _ => mean [0, 1])) [0, 1] = 0 ∧
    (∀ p b : List ℚ, ss_tot b = 0 → r2_metric p b = 0) ∧
    r2_multioutput [[0]] [[1]] =
      mean (([[0]].zip [[1]]).map (fun z => r2_metric z.1 z.2)) := by
  have h : ss_tot [0, 1] ≠ (0 : ℚ) := by
    norm_num [ss_tot, mean]
  exact r2_metric_properties [0, 1] h [[0]] [[1]]

/-! ## Trial results and ranking

The ranking code is present in the snapshot (src/unnamed/part_000): the
comparison outputs are ranked with
pandas.DataFrame.sort_values applied to the columns r2_score then
rmse_score with ascending=False, which orders lexicographically with BOTH
keys descending.  sort_le below is that comparator and rank_results the
resulting stable sort. -/

/-- One evaluated combination: configuration identifiers plus its test-set
scores, as displayed in the comparison output records. -/
structure TrialRecord where
  comboId : ℕ
  config : List ℕ
  r2_score : ℚ
  rmse_score : ℚ
  deriving DecidableEq

/-- The comparator realised by sort_values(by=[r2_score, rmse_score],
ascending=False): r2 descending, ties broken by rmse descending. -/
def sort_le (x y : TrialRecord) : Prop :=
  y.r2_score < x.r2_score ∨
    (x.r2_score = y.r2_score ∧ y.rmse_score ≤ x.rmse_score)

instance : DecidableRel sort_le := fun x y => by
  unfold sort_le; infer_instance

instance : IsTotal TrialRecord sort_le := by
  constructor
  intro x y
  unfold sort_le
  rcases lt_trichotomy x.r2_score y.r2_score with h | h | h
  · exact Or.inr (Or.inl h)
  · rcases le_total x.rmse_score y.rmse_score with h2 | h2
    · exact Or.inr (Or.inr ⟨h.symm, h2⟩)
    · exact Or.inl (Or.inr ⟨h, h2⟩)
  · exact Or.inl (Or.inl h)

instance : IsTrans TrialRecord sort_le := by
  constructor
  intro x y z hxy hyz
  unfold sort_le at hxy hyz ⊢
  rcases hxy with h1 | ⟨h1, h1r⟩ <;> rcases hyz with h2 | ⟨h2, h2r⟩
  · exact Or.inl (h2.trans h1)
  · exact Or.inl (h2 ▸ h1)
  · exact Or.inl (h1 ▸ h2)
  · exact Or.inr ⟨h1.trans h2, h2r.trans h1r⟩

/-- The ranking step of the comparison output. -/
def rank_results (rs : List TrialRecord) : List TrialRecord :=
  rs.insertionSort sort_le

/-- The ordering the claim asserts on tied results: primary score
descending, ties broken by rmse in its declared lower-is-better
direction. -/
def claimed_tie_order (l : List TrialRecord) : Prop :=
  l.Pairwise (fun x y =>
    y.r2_score < x.r2_score ∨
      (x.r2_score = y.r2_score ∧ x.rmse_score ≤ y.rmse_score))

instance (l : List TrialRecord) : Decidable (claimed_tie_order l) := by
  unfold claimed_tie_order; infer_instance

/-- C2 counterexample: two records tied on r2_score with rmse 1 and 2; the
code ranks the HIGHER rmse first (both sort keys are descending), so the
ranked output violates the lower-is-better tie-break the claim asserts.
This matches the recorded notebook output, where at tied r2 = 0.0 the row
with rmse 39.5387 precedes the row with rmse 39.5128. -/
theorem rank_results_tie_break_counterexample :
    rank_results [⟨0, [], 0, 1⟩, ⟨1, [], 0, 2⟩] =
      [⟨1, [], 0, 2⟩, ⟨0, [], 0, 1⟩] ∧
    ¬ claimed_tie_order (rank_results [⟨0, [], 0, 1⟩, ⟨1, [], 0, 2⟩]) := by
  constructor
  · rfl
  · decide

/-- C2 (amended): rank_results orders the trial records by the test-set
primary score descending (higher is better for r2), and results tied on the
primary score are ordered by the secondary rmse score DESCENDING (higher
rmse first, the opposite of its declared lower-is-better direction), since
sort_values applies ascending=False to both keys; the output is a
permutation of the input. -/
theorem rank_results_sorted (rs : List TrialRecord) :
    (rank_results rs).Sorted sort_le ∧ (rank_results rs).Perm rs := by
  exact ⟨List.sorted_insertionSort sort_le rs, List.perm_insertionSort sort_le rs⟩

/-! ## Transforms

Modelled from the spec: the module autoemulate.transforms with
StandardizeTransform (invertible affine standardization) and the Transform
base class is missing from the snapshot.  A fitted StandardizeTransform is
its fitted state: one location and one positive scale parameter per
feature; forward standardizes, inv is the exact affine inverse.  Lossy
transforms such as PCATransform reconstruct only approximately and are
outside the exact round-trip law. -/

/-- Fitted state of a StandardizeTransform: per-feature location and scale
parameters learned by fit. -/
structure StandardizeTransform where
  means : List ℚ
  stds : List ℚ
  deriving DecidableEq

/-- Forward mapping: standardize each feature with its fitted location and
scale. -/
def StandardizeTransform.forward (t : StandardizeTransform) (x : List ℚ) :
    List ℚ :=
  List.zipWith (fun p v => (v - p.1) / p.2) (t.means.zip t.stds) x

/-- Plain-Tensor inverse mapping: undo the standardization exactly. -/
def StandardizeTransform.inv (t : StandardizeTransform) (z : List ℚ) :
    List ℚ :=
  List.zipWith (fun p v => v * p.2 + p.1) (t.means.zip t.stds) z

/-- C6: for the invertible StandardizeTransform with fitted per-feature
parameters covering the input and nonzero scales, the round trip
inv (forward x) recovers x exactly (hence within any stated numerical
tolerance); lossy transforms such as PCA are excluded by the claim
itself. -/
theorem standardize_roundtrip (t : StandardizeTransform) (x : List ℚ)
    (hm : x.length ≤ t.means.length) (hs : x.length ≤ t.stds.length)
    (hnz : ∀ s ∈ t.stds, s ≠ 0) :
    t.inv (t.forward x) = x := by
  obtain ⟨ms, ss⟩ := t
  unfold StandardizeTransform.inv StandardizeTransform.forward
  simp only at hm hs hnz ⊢
  induction x generalizing ms ss with
  | nil => simp
  | cons v vs ih =>
      cases ms with
      | nil => simp at hm
      | cons m ms' =>
          cases ss with
          | nil => simp at hs
          | cons s ss' =>
              simp only [List.zip_cons_cons, List.zipWith_cons_cons,
                List.cons.injEq]
              constructor
              · have hs0 : s ≠ 0 := hnz s (by simp)
                field_simp
              · exact ih ms' ss' (by simpa using hm) (by simpa using hs)
                  (fun u hu => hnz u (by simp [hu]))

/-- C6 witness: a concrete fitted transform and input. -/
theorem standardize_roundtrip_witness :
    (StandardizeTransform.mk [3, 5] [2, 4]).inv
      ((StandardizeTransform.mk [3, 5] [2, 4]).forward [7, 9]) = [7, 9] := by
  refine standardize_roundtrip _ _ (by norm_num) (by norm_num) ?_
  intro s hs
  simp only [List.mem_cons, List.mem_singleton, List.not_mem_nil, or_false] at hs
  rcases hs with rfl | rfl <;> norm_num

/-! ## Predictive distributions and the Transformed Emulator

Modelled from the spec: the module
autoemulate.emulators.transformed.base with TransformedEmulator is
missing from the snapshot.  A Transform in a chain is its fitted behaviour:
a forward map, a plain-Tensor inverse, and the two distribution-inversion
modes (analytical and sampling) selected by the output_from_samples flag.
predict applies the x-chain forward, calls the underlying model once, and
inverts the y-chain in strictly reverse order; a plain Tensor returned by
the model is wrapped as a PointEstimate whose chain inversion is the
composition of the plain inverses. -/

/-- A Gaussian belief: mean vector and covariance rows. -/
structure GaussianState where
  mean : List ℚ
  cov : List (List ℚ)

/-- A typed prediction: point tensor or Gaussian. -/
inductive PredictiveDist where
  | pointEstimate (t : List ℚ)
  | gaussian (g : GaussianState)

/-- Fitted behaviour of one transform in a chain. -/
structure ChainTransform where
  forward : List ℚ → List ℚ
  inv : List ℚ → List ℚ
  invGaussianAnalytic : GaussianState → GaussianState
  invGaussianSample : GaussianState → GaussianState

/-- Inversion of one predictive distribution through one transform: a
PointEstimate inverts by the plain inverse, a Gaussian by the analytical or
sampling mode per the flag. -/
def ChainTransform.invDist (t : ChainTransform) (fromSamples : Bool) :
    PredictiveDist → PredictiveDist
  | .pointEstimate v => .pointEstimate (t.inv v)
  | .gaussian g =>
      .gaussian (if fromSamples then t.invGaussianSample g
                 else t.invGaussianAnalytic g)

/-- Forward application of a chain: T_n(...T_2(T_1(x))). -/
def chain_forward (ts : List ChainTransform) (x : List ℚ) : List ℚ :=
  ts.foldl (fun acc t => t.forward acc) x

/-- Operational inversion of a chain over a predictive distribution,
looping over the reversed chain as the library loop does. -/
def inv_chain_dist (ts : List ChainTransform) (fromSamples : Bool)
    (d : PredictiveDist) : PredictiveDist :=
  ts.reverse.foldl (fun acc t => t.invDist fromSamples acc) d

/-- Reverse-order composition of the plain inverses of a chain:
T_1_inv (T_2_inv (... T_n_inv v)). -/
def inv_chain_point : List ChainTransform → List ℚ → List ℚ
  | [], v => v
  | t :: ts, v => t.inv (inv_chain_point ts v)

/-- The output of the underlying model contract: a plain Tensor or a
Gaussian. -/
inductive ModelOutput where
  | tensor (t : List ℚ)
  | gaussianOut (g : GaussianState)

/-- A fitted Transformed Emulator: ordered x- and y-transform chains around
the fitted underlying model, plus the output_from_samples mode flag. -/
structure TransformedEmulator where
  x_transforms : List ChainTransform
  y_transforms : List ChainTransform
  model_predict : List ℚ → ModelOutput
  output_from_samples : Bool

/-- predict: apply the x-chain forward, call the underlying model, wrap a
plain Tensor as a PointEstimate, and invert the y-chain in reverse
order. -/
def TransformedEmulator.predict (em : TransformedEmulator)
    (x_new : List ℚ) : PredictiveDist :=
  match em.model_predict (chain_forward em.x_transforms x_new) with
  | .tensor t =>
      inv_chain_dist em.y_transforms em.output_from_samples (.pointEstimate t)
  | .gaussianOut g =>
      inv_chain_dist em.y_transforms em.output_from_samples (.gaussian g)

lemma inv_chain_dist_pointEstimate (ts : List ChainTransform)
    (fromSamples : Bool) (v : List ℚ) :
    inv_chain_dist ts fromSamples (.pointEstimate v) =
      .pointEstimate (inv_chain_point ts v) := by
  unfold inv_chain_dist
  rw [List.foldl_reverse]
  induction ts with
  | nil => rfl
  | cons t ts ih =>
      rw [List.foldr_cons, ih]
      rfl

/-- C4: whenever the underlying model returns a plain Tensor for the
forward-transformed input, predict returns a PointEstimate in the original
output space obtained by applying the plain inverses of the y-transform
chain in reverse order to the model output. -/
theorem transformed_emulator_predict_point (em : TransformedEmulator)
    (x_new t : List ℚ)
    (h : em.model_predict (chain_forward em.x_transforms x_new) = .tensor t) :
    em.predict x_new = .pointEstimate (inv_chain_point em.y_transforms t) := by
  unfold TransformedEmulator.predict
  rw [h]
  exact inv_chain_dist_pointEstimate em.y_transforms em.output_from_samples t

/-- C4 witness: a two-transform y-chain around a point-valued model; the
prediction is the reverse-order composition of the plain inverses. -/
theorem transformed_emulator_predict_point_witness :
    (TransformedEmulator.mk []
        [⟨id, fun v => v.map (· + 1), id, id⟩,
         ⟨id, fun v => v.map (· * 2), id, id⟩]
        (fun v => .tensor v) false).predict [5] =
      .pointEstimate [11] := by
  have h := transformed_emulator_predict_point
    (TransformedEmulator.mk []
        [⟨id, fun v => v.map (· + 1), id, id⟩,
         ⟨id, fun v => v.map (· * 2), id, id⟩]
        (fun v => .tensor v) false) [5] [5] rfl
  rw [h]
  norm_num [inv_chain_point]

/-! ## Persistence: save and load of a Trial Result

Modelled from the spec: AutoEmulate.save and AutoEmulate.load are missing
from the snapshot (the quickstart notebook only calls them).  A persisted
result is the model weights plus a structured metadata record holding the
model class identity, the transform chain identities with their fitted
parameters, the hyperparameter configuration and the scores; load rebuilds
a Transformed Emulator from that artifact alone, with no access to the
original training data (the artifact type has no training-data field). -/

/-- Dot product of two rational vectors. -/
def dot (u v : List ℚ) : ℚ := (List.zipWith (· * ·) u v).sum

/-- A fitted linear model head: one weight row per output target. -/
def lin_predict (weights : List (List ℚ)) (v : List ℚ) : List ℚ :=
  weights.map (fun row => dot row v)

/-- Forward application of a fitted standardize chain. -/
def std_chain_forward (ts : List StandardizeTransform) (x : List ℚ) :
    List ℚ :=
  ts.foldl (fun v t => t.forward v) x

/-- Reverse-order plain inversion of a fitted standardize chain. -/
def std_chain_inv : List StandardizeTransform → List ℚ → List ℚ
  | [], v => v
  | t :: ts, v => t.inv (std_chain_inv ts v)

/-- A fitted emulator as persisted: standardize chains around linear model
weights; its behaviour is fully determined by these fitted parameters. -/
structure FittedEmulator where
  x_chain : List StandardizeTransform
  y_chain : List StandardizeTransform
  weights : List (List ℚ)
  deriving DecidableEq

/-- Prediction of the fitted emulator in the original output space. -/
def FittedEmulator.predict (em : FittedEmulator) (x : List ℚ) : List ℚ :=
  std_chain_inv em.y_chain
    (lin_predict em.weights (std_chain_forward em.x_chain x))

/-- One evaluated Trial Result: configuration, fitted emulator, scores and
identifier.  It holds no training data. -/
structure TrialResult where
  model_cls : ℕ
  config : List ℕ
  emulator : FittedEmulator
  r2_score : ℚ
  rmse_score : ℚ
  id : ℕ
  deriving DecidableEq

/-- The persisted artifact: model weights plus the structured metadata
record of the spec, with the transform chains stored as their fitted
parameter pairs. -/
structure SavedArtifact where
  model_cls : ℕ
  x_params : List (List ℚ × List ℚ)
  y_params : List (List ℚ × List ℚ)
  weights : List (List ℚ)
  config : List ℕ
  r2_score : ℚ
  rmse_score : ℚ
  id : ℕ
  deriving DecidableEq

/-- save: persist weights and the structured metadata record. -/
def save (r : TrialResult) : SavedArtifact where
  model_cls := r.model_cls
  x_params := r.emulator.x_chain.map (fun t => (t.means, t.stds))
  y_params := r.emulator.y_chain.map (fun t => (t.means, t.stds))
  weights := r.emulator.weights
  config := r.config
  r2_score := r.r2_score
  rmse_score := r.rmse_score
  id := r.id

/-- load: reconstruct a Trial Result with a working Transformed Emulator
from the artifact alone. -/
def load (a : SavedArtifact) : TrialResult where
  model_cls := a.model_cls
  config := a.config
  emulator :=
    { x_chain := a.x_params.map (fun p => ⟨p.1, p.2⟩)
      y_chain := a.y_params.map (fun p => ⟨p.1, p.2⟩)
      weights := a.weights }
  r2_score := a.r2_score
  rmse_score := a.rmse_score
  id := a.id

lemma std_params_comp_id :
    ((fun p : List ℚ × List ℚ => StandardizeTransform.mk p.1 p.2) ∘
      fun t : StandardizeTransform => (t.means, t.stds)) = id := by
  funext t
  cases t
  rfl

lemma std_chain_params_roundtrip (ts : List StandardizeTransform) :
    (ts.map (fun t => (t.means, t.stds))).map
        (fun p => StandardizeTransform.mk p.1 p.2) = ts := by
  rw [List.map_map, std_params_comp_id, List.map_id]

/-- C8: loading a saved Trial Result reconstructs it exactly, so the
reconstructed emulator reproduces the original predictions on every input
and all persisted metadata (model class identity, transform chains with
fitted parameters, configuration, scores, id) is preserved; load consumes
only the artifact, never the training data. -/
theorem save_load_roundtrip (r : TrialResult) (x : List ℚ) :
    load (save r) = r ∧
    (load (save r)).emulator.predict x = r.emulator.predict x := by
  have h : load (save r) = r := by
    obtain ⟨mc, cfg, ⟨xc, yc, w⟩, r2s, rs, i⟩ := r
    simp [load, save, std_params_comp_id]
  exact ⟨h, by rw [h]⟩

/-! ## Covariance repair: make_positive_definite

Modelled from the spec: make_positive_definite in
autoemulate.transforms.base (line 209 of the library, per the notebook
warning trace) is missing from the snapshot.  When a covariance matrix is
not symmetric positive semi-definite it is symmetrized as (S + S^T)/2 and
the smallest diagonal jitter from the geometric schedule 1e-5, 1e-4, ...
(the notebook warning reports the 1e-5 base value) restoring positive
definiteness is added; the repair is reported as a recoverable
NumericalWarning, never a fatal error, and an already-valid matrix passes
through untouched and silently.  Covariances are 2 x 2 rational matrices,
on which positive (semi-)definiteness is the Sylvester criterion. -/

/-- A 2 x 2 rational matrix, row major. -/
structure Mat2 where
  a : ℚ
  b : ℚ
  c : ℚ
  d : ℚ
  deriving DecidableEq

/-- Symmetrization (S + S^T)/2. -/
def Mat2.symmetrize (M : Mat2) : Mat2 :=
  ⟨M.a, (M.b + M.c) / 2, (M.b + M.c) / 2, M.d⟩

/-- Symmetric positive semi-definiteness of a 2 x 2 matrix. -/
def Mat2.isPSD (M : Mat2) : Prop :=
  M.b = M.c ∧ 0 ≤ M.a ∧ 0 ≤ M.d ∧ 0 ≤ M.a * M.d - M.b * M.c

/-- Symmetric positive definiteness of a 2 x 2 matrix (Sylvester
criterion: positive leading principal minors). -/
def Mat2.isPD (M : Mat2) : Prop :=
  M.b = M.c ∧ 0 < M.a ∧ 0 < M.a * M.d - M.b * M.c

instance (M : Mat2) : Decidable M.isPSD := by
  unfold Mat2.isPSD; infer_instance

instance (M : Mat2) : Decidable M.isPD := by
  unfold Mat2.isPD; infer_instance

/-- Add a diagonal jitter. -/
def Mat2.add_jitter (eps : ℚ) (M : Mat2) : Mat2 :=
  ⟨M.a + eps, M.b, M.c, M.d + eps⟩

/-- The jitter schedule: 1e-5 growing by factors of 10. -/
def jitter_val (k : ℕ) : ℚ := (1 / 100000) * 10 ^ k

lemma Mat2.isPD_isPSD {M : Mat2} (h : M.isPD) : M.isPSD := by
  obtain ⟨hbc, ha, hdet⟩ := h
  have hbb : 0 ≤ M.b * M.c := by
    rw [← hbc]
    exact mul_self_nonneg M.b
  refine ⟨hbc, ha.le, ?_, hdet.le⟩
  nlinarith [hbb, ha, hdet]

lemma add_jitter_isPD (S : Mat2) (hS : S.b = S.c) (eps : ℚ)
    (h : 1 + |S.a| + |S.d| + |S.a * S.d| + S.b ^ 2 ≤ eps) :
    (S.add_jitter eps).isPD := by
  have ha := abs_nonneg S.a
  have hd := abs_nonneg S.d
  have had := abs_nonneg (S.a * S.d)
  have hb2 := sq_nonneg S.b
  have heps1 : 1 ≤ eps := by linarith
  have hsa := neg_abs_le S.a
  have hsd := neg_abs_le S.d
  have hsad := neg_abs_le (S.a * S.d)
  refine ⟨hS, by simp [Mat2.add_jitter]; linarith, ?_⟩
  simp only [Mat2.add_jitter]
  rw [← hS]
  have key : eps * eps ≥ eps * (1 + |S.a| + |S.d| + |S.a * S.d| + S.b ^ 2) :=
    mul_le_mul_of_nonneg_left h (by linarith)
  nlinarith [mul_le_mul_of_nonneg_right hsa (by linarith : (0:ℚ) ≤ eps),
    mul_le_mul_of_nonneg_right hsd (by linarith : (0:ℚ) ≤ eps)]

lemma jitter_schedule_exists (M : Mat2) :
    ∃ k : ℕ, ((M.symmetrize).add_jitter (jitter_val k)).isPD := by
  set S := M.symmetrize with hSdef
  have hS : S.b = S.c := rfl
  set B : ℚ := 1 + |S.a| + |S.d| + |S.a * S.d| + S.b ^ 2 with hB
  obtain ⟨k, hk⟩ := pow_unbounded_of_one_lt (100000 * B)
    (by norm_num : (1 : ℚ) < 10)
  refine ⟨k, add_jitter_isPD S hS _ ?_⟩
  rw [jitter_val]
  rw [show (1 / 100000 : ℚ) * 10 ^ k = 10 ^ k / 100000 by ring]
  rw [le_div_iff₀ (by norm_num : (0:ℚ) < 100000)]
  calc B * 100000 = 100000 * B := by ring
    _ ≤ 10 ^ k := hk.le

/-- List of warning conditions the repair can report. -/
inductive NumericalWarning where
  | covNotPD (jitter : ℚ)
  deriving DecidableEq

/-- make_positive_definite: return a valid covariance untouched; otherwise
symmetrize, add the smallest jitter of the schedule that restores positive
definiteness, and report the repair as a recoverable warning. -/
def make_positive_definite (M : Mat2) : Mat2 × Option NumericalWarning :=
  if M.isPSD then (M, none)
  else
    let k := Nat.find (jitter_schedule_exists M)
    ((M.symmetrize).add_jitter (jitter_val k),
      some (.covNotPD (jitter_val k)))

/-- C3: a covariance that is already symmetric positive semi-definite
passes through unchanged with no warning; any other covariance is
symmetrized and receives the smallest diagonal jitter of the schedule that
restores positive definiteness, with the repair reported as a recoverable
NumericalWarning; in every case the function returns a usable (positive
semi-definite) covariance, so processing continues and the repair is never
fatal and never silent. -/
theorem make_positive_definite_spec (M : Mat2) :
    (M.isPSD → make_positive_definite M = (M, none)) ∧
    (¬ M.isPSD → ∃ k : ℕ,
      make_positive_definite M =
        ((M.symmetrize).add_jitter (jitter_val k),
          some (.covNotPD (jitter_val k))) ∧
      ((M.symmetrize).add_jitter (jitter_val k)).isPD ∧
      ∀ j < k, ¬ ((M.symmetrize).add_jitter (jitter_val j)).isPD) ∧
    (make_positive_definite M).1.isPSD := by
  refine ⟨fun h => by simp [make_positive_definite, h], fun h => ?_, ?_⟩
  · refine ⟨Nat.find (jitter_schedule_exists M), ?_, ?_, ?_⟩
    · simp [make_positive_definite, h]
    · exact Nat.find_spec (jitter_schedule_exists M)
    · exact fun j hj => Nat.find_min (jitter_schedule_exists M) hj
  · by_cases h : M.isPSD
    · simp [make_positive_definite, h]
    · simp only [make_positive_definite, h, if_false]
      exact Mat2.isPD_isPSD (Nat.find_spec (jitter_schedule_exists M))

/-- C3 witness: the not-positive-semi-definite covariance [[1, 2], [2, 1]]
is repaired with a schedule jitter and a warning, and the repaired result
of any input is positive semi-definite. -/
theorem make_positive_definite_spec_witness :
    (∃ k : ℕ,
      make_positive_definite ⟨1, 2, 2, 1⟩ =
        (((⟨1, 2, 2, 1⟩ : Mat2).symmetrize).add_jitter (jitter_val k),
          some (.covNotPD (jitter_val k))) ∧
      (((⟨1, 2, 2, 1⟩ : Mat2).symmetrize).add_jitter (jitter_val k)).isPD ∧
      ∀ j < k,
        ¬ (((⟨1, 2, 2, 1⟩ : Mat2).symmetrize).add_jitter (jitter_val j)).isPD) ∧
    (make_positive_definite ⟨1, 2, 2, 1⟩).1.isPSD := by
  have h : ¬ (⟨1, 2, 2, 1⟩ : Mat2).isPSD := by
    unfold Mat2.isPSD
    norm_num
  obtain ⟨h1, h2, h3⟩ := make_positive_definite_spec ⟨1, 2, 2, 1⟩
  exact ⟨h2 h, h3⟩

/-! ## Sampling versus analytical covariance propagation

Modelled from the spec: the methods _inverse_sample and _inverse_gaussian
of the transform base class are missing from the snapshot (the notebooks
only call them).  For a linear transform the plain-Tensor inverse is the
affine map v maps-to A v + b; analytical mode propagates a covariance S as
A S A^T, while sampling mode applies the affine inverse to each draw and
takes the empirical mean and covariance of the results.  The theorems
below show the two modes commute exactly through the linear map: the
sampling estimate differs from the analytical result by precisely the
linear image of the empirical-moment error of the raw draws, so the standard
Monte Carlo rate O(1/sqrt(sample_count)) of the raw empirical covariance
is inherited unchanged; and the draw stream is a deterministic function of
the seed, so a fixed seed reproduces the estimate. -/

/-- The pseudo-random generator seeding every stochastic step: a linear
congruential step on 31-bit naturals. -/
def lcg (s : ℕ) : ℕ := (1103515245 * s + 12345) % 2 ^ 31

/-- Empirical mean over N draws of n-vectors. -/
def empMean {N n : ℕ} (xs : Fin N → Fin n → ℚ) (i : Fin n) : ℚ :=
  (∑ s, xs s i) / (N : ℚ)

/-- Empirical covariance over N draws of n-vectors. -/
def empCov {N n : ℕ} (xs : Fin N → Fin n → ℚ) (i j : Fin n) : ℚ :=
  (∑ s, (xs s i - empMean xs i) * (xs s j - empMean xs j)) / (N : ℚ)

/-- The plain-Tensor inverse of a linear transform: an affine map. -/
def affine_inv (A : Fin n → Fin n → ℚ) (b : Fin n → ℚ)
    (v : Fin n → ℚ) (i : Fin n) : ℚ :=
  (∑ k, A i k * v k) + b i

/-- Sampling mode, step one: apply the plain-Tensor inverse to each
draw. -/
def inverse_samples {N n : ℕ} (A : Fin n → Fin n → ℚ) (b : Fin n → ℚ)
    (xs : Fin N → Fin n → ℚ) : Fin N → Fin n → ℚ :=
  fun s => affine_inv A b (xs s)

/-- Analytical mode: the exact covariance A S A^T of the affine image. -/
def analytic_cov (A : Fin n → Fin n → ℚ) (S : Fin n → Fin n → ℚ)
    (i j : Fin n) : ℚ :=
  ∑ k, ∑ l, A i k * S k l * A j l

/-- Deterministic draw stream: each draw coordinate is a pure function of
the session seed (reparameterized sampling). -/
def pseudo_draws (seed : ℕ) (N n : ℕ) : Fin N → Fin n → ℚ :=
  fun s i => ((lcg (seed + s.val * n + i.val) % 2001 : ℕ) : ℚ) / 1000 - 1

/-- The sampling-mode covariance estimate produced from a seed. -/
def sampling_cov (A : Fin n → Fin n → ℚ) (b : Fin n → ℚ)
    (N seed : ℕ) (i j : Fin n) : ℚ :=
  empCov (inverse_samples A b (pseudo_draws seed N n)) i j

lemma empMean_affine {N n : ℕ} (hN : 0 < N) (A : Fin n → Fin n → ℚ)
    (b : Fin n → ℚ) (xs : Fin N → Fin n → ℚ) (i : Fin n) :
    empMean (inverse_samples A b xs) i =
      (∑ k, A i k * empMean xs k) + b i := by
  have hNq : (N : ℚ) ≠ 0 := Nat.cast_ne_zero.mpr hN.ne'
  unfold empMean inverse_samples affine_inv
  rw [Finset.sum_add_distrib, Finset.sum_const, Finset.card_univ,
    Fintype.card_fin, Finset.sum_comm]
  rw [add_div, nsmul_eq_mul, mul_comm ((N : ℚ)) (b i), mul_div_assoc,
    div_self hNq, mul_one]
  congr 1
  rw [Finset.sum_div]
  refine Finset.sum_congr rfl (fun k _ => ?_)
  rw [← Finset.mul_sum, mul_div_assoc]

lemma centered_affine {N n : ℕ} (hN : 0 < N) (A : Fin n → Fin n → ℚ)
    (b : Fin n → ℚ) (xs : Fin N → Fin n → ℚ) (s : Fin N) (i : Fin n) :
    inverse_samples A b xs s i - empMean (inverse_samples A b xs) i =
      ∑ k, A i k * (xs s k - empMean xs k) := by
  rw [empMean_affine hN]
  unfold inverse_samples affine_inv
  rw [add_sub_add_right_eq_sub, ← Finset.sum_sub_distrib]
  refine Finset.sum_congr rfl (fun k _ => ?_)
  ring

lemma empCov_affine {N n : ℕ} (hN : 0 < N) (A : Fin n → Fin n → ℚ)
    (b : Fin n → ℚ) (xs : Fin N → Fin n → ℚ) (i j : Fin n) :
    empCov (inverse_samples A b xs) i j =
      ∑ k, ∑ l, A i k * empCov xs k l * A j l := by
  unfold empCov
  have hstep : ∀ s : Fin N,
      (inverse_samples A b xs s i - empMean (inverse_samples A b xs) i) *
        (inverse_samples A b xs s j - empMean (inverse_samples A b xs) j) =
      ∑ k, ∑ l, A i k * A j l *
        ((xs s k - empMean xs k) * (xs s l - empMean xs l)) := by
    intro s
    rw [centered_affine hN, centered_affine hN, Finset.sum_mul_sum]
    refine Finset.sum_congr rfl (fun k _ => ?_)
    refine Finset.sum_congr rfl (fun l _ => ?_)
    ring
  rw [Finset.sum_congr rfl (fun s _ => hstep s), Finset.sum_comm]
  rw [Finset.sum_div]
  refine Finset.sum_congr rfl (fun k _ => ?_)
  rw [Finset.sum_comm, Finset.sum_div]
  refine Finset.sum_congr rfl (fun l _ => ?_)
  rw [← Finset.mul_sum, mul_div_assoc]
  ring

/-- C5: for a linear transform, the sampling-mode covariance (empirical
covariance of the plain-Tensor inverse applied to each of the N draws)
deviates from the analytical-mode covariance A S A^T by at most
n^2 a^2 eps whenever the empirical covariance of the raw draws deviates from the
input covariance S by at most eps entrywise; the Monte Carlo error
eps = O(1/sqrt(sample_count)) of the raw draws is therefore inherited
unchanged, giving convergence to the analytical result as the sample count
grows; and the draw stream is a pure function of the seed, so the estimate
is reproducible given a fixed seed. -/
theorem sampling_converges_to_analytic {N n : ℕ} (hN : 0 < N)
    (A : Fin n → Fin n → ℚ) (b : Fin n → ℚ) (xs : Fin N → Fin n → ℚ)
    (S : Fin n → Fin n → ℚ) (amax eps : ℚ)
    (hA : ∀ i k, |A i k| ≤ amax) (ha : 0 ≤ amax) (he : 0 ≤ eps)
    (hcov : ∀ k l, |empCov xs k l - S k l| ≤ eps) :
    (∀ i j, |empCov (inverse_samples A b xs) i j - analytic_cov A S i j| ≤
      (n : ℚ) ^ 2 * amax ^ 2 * eps) ∧
    (∀ s₁ s₂ : ℕ, s₁ = s₂ →
      sampling_cov A b N s₁ = sampling_cov A b N s₂) := by
  constructor
  · intro i j
    rw [empCov_affine hN, analytic_cov]
    rw [← Finset.sum_sub_distrib]
    have hterm : ∀ k : Fin n,
        ((∑ l, A i k * empCov xs k l * A j l) -
          ∑ l, A i k * S k l * A j l) =
        ∑ l, A i k * (empCov xs k l - S k l) * A j l := by
      intro k
      rw [← Finset.sum_sub_distrib]
      refine Finset.sum_congr rfl (fun l _ => ?_)
      ring
    rw [Finset.sum_congr rfl (fun k _ => hterm k)]
    calc |∑ k, ∑ l, A i k * (empCov xs k l - S k l) * A j l|
        ≤ ∑ k, |∑ l, A i k * (empCov xs k l - S k l) * A j l| :=
          Finset.abs_sum_le_sum_abs _ _
      _ ≤ ∑ k : Fin n, ∑ l : Fin n, |A i k * (empCov xs k l - S k l) * A j l| := by
          refine Finset.sum_le_sum (fun k _ => Finset.abs_sum_le_sum_abs _ _)
      _ ≤ ∑ k : Fin n, ∑ l : Fin n, amax * eps * amax := by
          refine Finset.sum_le_sum (fun k _ => ?_)
          refine Finset.sum_le_sum (fun l _ => ?_)
          rw [abs_mul, abs_mul]
          have h1 := hA i k
          have h2 := hcov k l
          have h3 := hA j l
          have hab := abs_nonneg (A i k)
          have heab := abs_nonneg (empCov xs k l - S k l)
          have hjb := abs_nonneg (A j l)
          exact mul_le_mul (mul_le_mul h1 h2 heab ha) h3 hjb
            (by positivity)
      _ = (n : ℚ) ^ 2 * amax ^ 2 * eps := by
          rw [Finset.sum_const, Finset.sum_const, Finset.card_univ,
            Fintype.card_fin, nsmul_eq_mul, nsmul_eq_mul]
          ring
  · intro s₁ s₂ h
    rw [h]

/-- C5 witness: the bound and the reproducibility instantiated at a
concrete one-dimensional linear transform with two draws. -/
theorem sampling_converges_to_analytic_witness :
    (∀ i j, |empCov (inverse_samples (fun _ _ => (2 : ℚ)) (fun _ => 1)
        (fun s _ => if s.val = 0 then 0 else 1 : Fin 2 → Fin 1 → ℚ)) i j -
      analytic_cov (fun _ _ => (2 : ℚ)) (fun _ _ => (1 : ℚ)) i j| ≤
      ((1 : ℕ) : ℚ) ^ 2 * 2 ^ 2 * 1) ∧
    (∀ s₁ s₂ : ℕ, s₁ = s₂ →
      @sampling_cov 1 (fun _ _ => (2 : ℚ)) (fun _ => 1) 2 s₁ =
        @sampling_cov 1 (fun _ _ => (2 : ℚ)) (fun _ => 1) 2 s₂) := by
  refine sampling_converges_to_analytic (by norm_num)
    (fun _ _ => (2 : ℚ)) (fun _ => 1) _ (fun _ _ => (1 : ℚ)) 2 1
    (fun i k => by norm_num) (by norm_num) (by norm_num) ?_
  intro k l
  have h : empCov (fun s _ => if s.val = 0 then 0 else 1 : Fin 2 → Fin 1 → ℚ)
      k l = 1 / 4 := by
    unfold empCov empMean
    rw [Fin.sum_univ_two, Fin.sum_univ_two]
    norm_num
  rw [h, abs_le]
  constructor <;> norm_num

/-! ## The comparison engine

Modelled from the spec: the module autoemulate.core.compare with the
AutoEmulate class and its compare method is missing from the snapshot (the
notebooks only construct the class and call compare, summarise and
best_result).  compare enumerates the manifest of candidate combinations;
every stochastic step (the train/test split, the per-trial configuration
sampling) is driven by the one session-level seed, with the per-trial seed
derived as seed + trial index; each trial fits the combination on the
cross-validation fold through the external model contract and scores the
held-out fold; a failing trial is recorded with its error kind and
skipped; the best successful trial of a combination is refit on the full
training split and scored on the held-out test split; a combination whose
trials all failed is excluded; if every combination failed, compare fails
with the aggregate per-combination causes, otherwise it returns the ranked
records. -/

/-- Error taxonomy of the trial loop. -/
inductive ErrorKind where
  | modelFitError
  | numericalError
  | timeout
  | cancelled
  deriving DecidableEq

/-- Input/output sample pairs. -/
abbrev Dataset := List (List ℚ × List ℚ)

/-- A sampled hyperparameter configuration. -/
abbrev HyperConfig := List ℕ

/-- A fitted emulator under the external model contract: predict on one
input vector. -/
abbrev EmulatorFn := List ℚ → List ℚ

/-- One candidate combination of the manifest: a model class identity with
its x- and y-transform chain identities, and the external fit contract
(which may fail with an error kind). -/
structure Combination where
  id : ℕ
  model_cls : ℕ
  x_transforms : List ℕ
  y_transforms : List ℕ
  fitFn : Dataset → HyperConfig → Except ErrorKind EmulatorFn

/-- Per-trial seed, derived deterministically from the session seed. -/
def trial_seed (seed idx : ℕ) : ℕ := seed + idx

/-- Tuner configuration sampling, a pure function of the trial seed. -/
def sample_config (tseed : ℕ) : HyperConfig :=
  [lcg tseed % 100, lcg (lcg tseed) % 100]

/-- The seeded train/test split: every index is assigned by the session
seed through the generator. -/
def seeded_split (seed : ℕ) (d : Dataset) : Dataset × Dataset :=
  (d.enum.filterMap
      (fun p => if lcg (seed + p.1) % 5 ≠ 0 then some p.2 else none),
   d.enum.filterMap
      (fun p => if lcg (seed + p.1) % 5 = 0 then some p.2 else none))

/-- The training half of the seeded split. -/
def train_split (seed : ℕ) (d : Dataset) : Dataset := (seeded_split seed d).1

/-- The held-out test half of the seeded split. -/
def test_split (seed : ℕ) (d : Dataset) : Dataset := (seeded_split seed d).2

/-- The cross-validation fitting fold of the training split. -/
def cv_fit_fold (seed : ℕ) (d : Dataset) : Dataset :=
  (train_split seed d).take ((train_split seed d).length / 2)

/-- The cross-validation held-out fold of the training split. -/
def cv_hold_fold (seed : ℕ) (d : Dataset) : Dataset :=
  (train_split seed d).drop ((train_split seed d).length / 2)

/-- Score a fitted emulator on a dataset with a metric over the
concatenated outputs. -/
def score_with (metric : List ℚ → List ℚ → ℚ) (f : EmulatorFn)
    (ds : Dataset) : ℚ :=
  metric ((ds.map (fun p => f p.1)).flatten) ((ds.map (fun p => p.2)).flatten)

/-- One tuner trial: fit the combination on the cross-validation fitting
fold with the sampled configuration and score the held-out fold; a fit
failure is recorded as the error kind of the trial. -/
def run_trial (c : Combination) (cvTrain cvHold : Dataset)
    (cfg : HyperConfig) : Except ErrorKind (HyperConfig × ℚ) :=
  (c.fitFn cvTrain cfg).map (fun f => (cfg, score_with r2_metric f cvHold))

/-- The recorded outcomes of the n trials of one combination; trial j uses
the configuration sampled from the derived seed seed + j. -/
def combo_trials (c : Combination) (cvTrain cvHold : Dataset)
    (seed n : ℕ) : List (Except ErrorKind (HyperConfig × ℚ)) :=
  (List.range n).map
    (fun j => run_trial c cvTrain cvHold (sample_config (trial_seed seed j)))

/-- The successful trials among the recorded outcomes. -/
def trial_successes (ts : List (Except ErrorKind (HyperConfig × ℚ))) :
    List (HyperConfig × ℚ) :=
  ts.filterMap Except.toOption

/-- The error kinds of the failed trials among the recorded outcomes. -/
def trial_causes (ts : List (Except ErrorKind (HyperConfig × ℚ))) :
    List ErrorKind :=
  ts.filterMap (fun t => match t with | .error e => some e | .ok _ => none)

/-- The best-scoring successful trial (the earliest on ties). -/
def best_by_score : List (HyperConfig × ℚ) → Option (HyperConfig × ℚ)
  | [] => none
  | c :: rest =>
      match best_by_score rest with
      | none => some c
      | some b => if b.2 ≤ c.2 then some c else some b

/-- Evaluate one combination: run its trials, skip the failures, pick the
best successful configuration, refit it on the full training split and
score the held-out test split; if every trial failed (or the refit
failed), the combination is wholly failed with its recorded causes. -/
def combo_result (c : Combination) (train test cvTrain cvHold : Dataset)
    (seed n : ℕ) : Except (List ErrorKind) TrialRecord :=
  match best_by_score
      (trial_successes (combo_trials c cvTrain cvHold seed n)) with
  | none => .error (trial_causes (combo_trials c cvTrain cvHold seed n))
  | some cb =>
      match c.fitFn train cb.1 with
      | .error e =>
          .error (trial_causes (combo_trials c cvTrain cvHold seed n) ++ [e])
      | .ok f =>
          .ok ⟨c.id, cb.1, score_with r2_metric f test,
            score_with rmse_metric f test⟩

/-- The per-combination outcomes of the whole manifest. -/
def combo_outcomes (d : Dataset) (manifest : List Combination)
    (seed n : ℕ) : List (ℕ × Except (List ErrorKind) TrialRecord) :=
  manifest.map (fun c =>
    (c.id, combo_result c (train_split seed d) (test_split seed d)
      (cv_fit_fold seed d) (cv_hold_fold seed d) seed n))

/-- The successful combination records. -/
def combo_oks (d : Dataset) (manifest : List Combination) (seed n : ℕ) :
    List TrialRecord :=
  (combo_outcomes d manifest seed n).filterMap (fun p => p.2.toOption)

/-- The causes of one combination outcome (empty for a success). -/
def outcome_causes (o : Except (List ErrorKind) TrialRecord) :
    List ErrorKind :=
  match o with
  | .error es => es
  | .ok _ => []

/-- The aggregate error: per-combination identities with their causes. -/
def aggregate_causes (d : Dataset) (manifest : List Combination)
    (seed n : ℕ) : List (ℕ × List ErrorKind) :=
  (combo_outcomes d manifest seed n).map (fun p => (p.1, outcome_causes p.2))

/-- compare: evaluate every combination of the manifest and rank the
successful records; fail with the aggregate per-combination causes only
when every combination failed. -/
def compare (d : Dataset) (manifest : List Combination) (seed n : ℕ) :
    Except (List (ℕ × List ErrorKind)) (List TrialRecord) :=
  if (combo_oks d manifest seed n).isEmpty then
    .error (aggregate_causes d manifest seed n)
  else
    .ok (rank_results (combo_oks d manifest seed n))

/-- C1: compare is a pure function of the input data, the manifest and the
session seed, so two runs with identical inputs produce identical rankings
and identical scores; the per-trial seed is derived deterministically from
the session seed as seed + trial index, and the configuration of each trial is
sampled from exactly that derived seed. -/
theorem compare_deterministic (d : Dataset) (m : List Combination)
    (seed n : ℕ)
    (r₁ r₂ : Except (List (ℕ × List ErrorKind)) (List TrialRecord))
    (h₁ : r₁ = compare d m seed n) (h₂ : r₂ = compare d m seed n) :
    r₁ = r₂ ∧
    (∀ i, trial_seed seed i = seed + i) ∧
    (∀ c cvT cvH, combo_trials c cvT cvH seed n = (List.range n).map
      (fun j => run_trial c cvT cvH (sample_config (trial_seed seed j)))) ∧
    seeded_split seed d = seeded_split seed d :=
  ⟨h₁.trans h₂.symm, fun _ => rfl, fun _ _ _ => rfl, rfl⟩

/-- C1 witness: two runs on a concrete dataset, manifest and seed. -/
theorem compare_deterministic_witness :
    compare [([1], [1])]
        [⟨0, 0, [], [], fun _ _ => .ok (fun v => v)⟩] 7 2 =
      compare [([1], [1])]
        [⟨0, 0, [], [], fun _ _ => .ok (fun v => v)⟩] 7 2 ∧
    (∀ i, trial_seed 7 i = 7 + i) ∧
    (∀ c cvT cvH, combo_trials c cvT cvH 7 2 = (List.range 2).map
      (fun j => run_trial c cvT cvH (sample_config (trial_seed 7 j)))) ∧
    seeded_split 7 [([1], [1])] = seeded_split 7 [([1], [1])] :=
  compare_deterministic [([1], [1])]
    [⟨0, 0, [], [], fun _ _ => .ok (fun v => v)⟩] 7 2 _ _ rfl rfl

lemma combo_result_error_of_allfail (c : Combination)
    (h : ∀ ds cfg, ∃ e, c.fitFn ds cfg = .error e)
    (train test cvTrain cvHold : Dataset) (seed n : ℕ) :
    ∃ es, combo_result c train test cvTrain cvHold seed n = .error es := by
  have hsucc : trial_successes (combo_trials c cvTrain cvHold seed n) = [] := by
    rw [trial_successes, List.filterMap_eq_nil_iff]
    intro t ht
    rw [combo_trials, List.mem_map] at ht
    obtain ⟨j, _, rfl⟩ := ht
    obtain ⟨e, he⟩ := h cvTrain (sample_config (trial_seed seed j))
    rw [run_trial, he]
    rfl
  simp only [combo_result, hsucc, best_by_score]
  exact ⟨_, rfl⟩

lemma best_by_score_of_ne_nil (l : List (HyperConfig × ℚ)) (h : l ≠ []) :
    ∃ b, best_by_score l = some b := by
  cases l with
  | nil => exact absurd rfl h
  | cons c rest =>
      cases hb : best_by_score rest with
      | none => exact ⟨c, by simp [best_by_score, hb]⟩
      | some b =>
          by_cases hle : b.2 ≤ c.2
          · exact ⟨c, by simp [best_by_score, hb, hle]⟩
          · exact ⟨b, by simp [best_by_score, hb, hle]⟩

lemma combo_result_ok_of_allok (c : Combination)
    (h : ∀ ds cfg, ∃ f, c.fitFn ds cfg = .ok f)
    (train test cvTrain cvHold : Dataset) (seed n : ℕ) (hn : 0 < n) :
    ∃ r, combo_result c train test cvTrain cvHold seed n = .ok r ∧
      r.comboId = c.id := by
  obtain ⟨f0, hf0⟩ := h cvTrain (sample_config (trial_seed seed 0))
  have hmem : (sample_config (trial_seed seed 0),
      score_with r2_metric f0 cvHold) ∈
      trial_successes (combo_trials c cvTrain cvHold seed n) := by
    rw [trial_successes, List.mem_filterMap]
    refine ⟨run_trial c cvTrain cvHold (sample_config (trial_seed seed 0)),
      ?_, ?_⟩
    · rw [combo_trials, List.mem_map]
      exact ⟨0, List.mem_range.mpr hn, rfl⟩
    · rw [run_trial, hf0]
      rfl
  obtain ⟨b, hb⟩ := best_by_score_of_ne_nil _ (List.ne_nil_of_mem hmem)
  obtain ⟨f, hf⟩ := h train b.1
  refine ⟨⟨c.id, b.1, score_with r2_metric f test,
    score_with rmse_metric f test⟩, ?_, rfl⟩
  simp only [combo_result, hb, hf]

lemma combo_result_ok_comboId (c : Combination)
    (train test cvT cvH : Dataset) (seed n : ℕ) (r : TrialRecord)
    (h : combo_result c train test cvT cvH seed n = .ok r) :
    r.comboId = c.id := by
  unfold combo_result at h
  split at h
  · exact absurd h (by simp)
  · split at h
    · exact absurd h (by simp)
    · simp only [Except.ok.injEq] at h
      rw [← h]

lemma compare_error_iff (d : Dataset) (m : List Combination) (seed n : ℕ) :
    (∃ agg, compare d m seed n = .error agg) ↔
      ∀ p ∈ combo_outcomes d m seed n, ∃ es, p.2 = .error es := by
  unfold compare
  by_cases h : (combo_oks d m seed n).isEmpty = true
  · simp only [h, if_true]
    constructor
    · intro _ p hp
      have h0 : combo_oks d m seed n = [] := List.isEmpty_iff.mp h
      rw [combo_oks, List.filterMap_eq_nil_iff] at h0
      have hnone := h0 p hp
      cases hpe : p.2 with
      | error es => exact ⟨es, rfl⟩
      | ok r =>
          rw [hpe] at hnone
          exact absurd hnone (by simp [Except.toOption])
    · intro _
      exact ⟨_, rfl⟩
  · simp only [h, if_false]
    constructor
    · rintro ⟨agg, hagg⟩
      exact absurd hagg (by simp)
    · intro hall
      exfalso
      apply h
      rw [List.isEmpty_iff, combo_oks, List.filterMap_eq_nil_iff]
      intro p hp
      obtain ⟨es, hes⟩ := hall p hp
      rw [hes]
      rfl

lemma compare_error_eq (d : Dataset) (m : List Combination) (seed n : ℕ)
    (hall : ∀ p ∈ combo_outcomes d m seed n, ∃ es, p.2 = .error es) :
    compare d m seed n = .error (aggregate_causes d m seed n) := by
  have hempty : (combo_oks d m seed n).isEmpty = true := by
    rw [List.isEmpty_iff, combo_oks, List.filterMap_eq_nil_iff]
    intro p hp
    obtain ⟨es, hes⟩ := hall p hp
    rw [hes]
    rfl
  unfold compare
  rw [if_pos hempty]

lemma mem_combo_oks (d : Dataset) (m : List Combination) (seed n : ℕ)
    (r : TrialRecord) (hr : r ∈ combo_oks d m seed n) :
    ∃ c ∈ m, combo_result c (train_split seed d) (test_split seed d)
      (cv_fit_fold seed d) (cv_hold_fold seed d) seed n = .ok r := by
  rw [combo_oks, List.mem_filterMap] at hr
  obtain ⟨p, hp, hps⟩ := hr
  rw [combo_outcomes, List.mem_map] at hp
  obtain ⟨c, hc, rfl⟩ := hp
  refine ⟨c, hc, ?_⟩
  cases hpe : combo_result c (train_split seed d) (test_split seed d)
      (cv_fit_fold seed d) (cv_hold_fold seed d) seed n with
  | error es => rw [hpe] at hps; exact absurd hps (by simp [Except.toOption])
  | ok r' =>
      rw [hpe] at hps
      simp only [Except.toOption, Option.some.injEq] at hps
      rw [hps]

/-- C7: during compare, failing trials are recorded with their error kinds
and skipped; a combination whose every trial raises an error (here,
ModelFitError from the external fit contract) is excluded from the ranked
results while compare still succeeds thanks to any combination whose
trials succeed; and compare itself fails exactly when every combination
failed, in which case it returns the aggregate error listing each
identity of each combination with its recorded causes. -/
theorem compare_failure_semantics (d : Dataset) (m : List Combination)
    (seed n : ℕ) (hn : 0 < n) (cfail cok : Combination)
    (_hfm : cfail ∈ m)
    (hfailAll : ∀ ds cfg, ∃ e, cfail.fitFn ds cfg = .error e)
    (hid : ∀ c ∈ m, c.id = cfail.id → c = cfail)
    (hom : cok ∈ m)
    (hokAll : ∀ ds cfg, ∃ f, cok.fitFn ds cfg = .ok f) :
    (∃ rs, compare d m seed n = .ok rs ∧
      (∀ r ∈ rs, r.comboId ≠ cfail.id) ∧
      (∃ r ∈ rs, r.comboId = cok.id)) ∧
    (∀ d' : Dataset, ∀ m' : List Combination, ∀ s' n' : ℕ,
      (∃ agg, compare d' m' s' n' = .error agg) ↔
        ∀ p ∈ combo_outcomes d' m' s' n', ∃ es, p.2 = .error es) ∧
    (∀ d' : Dataset, ∀ m' : List Combination, ∀ s' n' : ℕ,
      (∀ p ∈ combo_outcomes d' m' s' n', ∃ es, p.2 = .error es) →
        compare d' m' s' n' = .error (aggregate_causes d' m' s' n')) := by
  refine ⟨?_, fun d' m' s' n' => compare_error_iff d' m' s' n',
    fun d' m' s' n' => compare_error_eq d' m' s' n'⟩
  obtain ⟨rok, hrok, hrokid⟩ := combo_result_ok_of_allok cok hokAll
    (train_split seed d) (test_split seed d) (cv_fit_fold seed d)
    (cv_hold_fold seed d) seed n hn
  have hrmem : rok ∈ combo_oks d m seed n := by
    rw [combo_oks, List.mem_filterMap]
    refine ⟨(cok.id, combo_result cok (train_split seed d)
      (test_split seed d) (cv_fit_fold seed d) (cv_hold_fold seed d)
      seed n), ?_, ?_⟩
    · rw [combo_outcomes, List.mem_map]
      exact ⟨cok, hom, rfl⟩
    · rw [hrok]
      rfl
  have hne : (combo_oks d m seed n).isEmpty = false := by
    rcases he : (combo_oks d m seed n).isEmpty with h | h
    · rfl
    · exact absurd (List.isEmpty_iff.mp he ▸ hrmem) (List.not_mem_nil rok)
  refine ⟨rank_results (combo_oks d m seed n), ?_, ?_, ?_⟩
  · unfold compare
    rw [hne]
    rfl
  · intro r hrr hcontra
    have hrin : r ∈ combo_oks d m seed n :=
      (List.perm_insertionSort sort_le (combo_oks d m seed n)).mem_iff.mp hrr
    obtain ⟨c, hc, hcres⟩ := mem_combo_oks d m seed n r hrin
    have hcid : c.id = cfail.id := by
      rw [← combo_result_ok_comboId c _ _ _ _ seed n r hcres]
      exact hcontra
    have hceq : c = cfail := hid c hc hcid
    obtain ⟨es, hes⟩ := combo_result_error_of_allfail cfail hfailAll
      (train_split seed d) (test_split seed d) (cv_fit_fold seed d)
      (cv_hold_fold seed d) seed n
    rw [hceq, hes] at hcres
    exact Except.noConfusion hcres
  · refine ⟨rok, ?_, hrokid⟩
    exact (List.perm_insertionSort sort_le (combo_oks d m seed n)).mem_iff.mpr
      hrmem

/-- The always-failing combination used by the witness. -/
def cfailW : Combination :=
  ⟨0, 0, [], [], fun _ _ => .error .modelFitError⟩

/-- The always-succeeding combination used by the witness. -/
def cokW : Combination :=
  ⟨1, 1, [], [], fun _ _ => .ok (fun v => v)⟩

/-- C7 witness: a manifest with one wholly-failing combination (every
trial raises ModelFitError) and one succeeding combination. -/
theorem compare_failure_semantics_witness :
    (∃ rs, compare [([1], [1])] [cfailW, cokW] 3 1 = .ok rs ∧
      (∀ r ∈ rs, r.comboId ≠ cfailW.id) ∧
      (∃ r ∈ rs, r.comboId = cokW.id)) ∧
    (∀ d' : Dataset, ∀ m' : List Combination, ∀ s' n' : ℕ,
      (∃ agg, compare d' m' s' n' = .error agg) ↔
        ∀ p ∈ combo_outcomes d' m' s' n', ∃ es, p.2 = .error es) ∧
    (∀ d' : Dataset, ∀ m' : List Combination, ∀ s' n' : ℕ,
      (∀ p ∈ combo_outcomes d' m' s' n', ∃ es, p.2 = .error es) →
        compare d' m' s' n' = .error (aggregate_causes d' m' s' n')) := by
  refine compare_failure_semantics [([1], [1])] [cfailW, cokW] 3 1
    (by norm_num) cfailW cokW (by simp) (fun ds cfg => ⟨.modelFitError, rfl⟩)
    ?_ (by simp) (fun ds cfg => ⟨fun v => v, rfl⟩)
  intro c hc hcid
  rcases List.mem_cons.mp hc with rfl | hc2
  · rfl
  · rw [List.mem_singleton.mp hc2] at hcid
    exact absurd hcid (by norm_num [cokW, cfailW])

/-! ## The AutoEmulate session

Modelled from the spec and the notebook traces: the AutoEmulate class of
autoemulate.core.compare is missing from the snapshot.  The quickstart and
history-matching notebooks construct the session and then immediately call
summarise and best_result with no explicit call to compare, and the
recorded constructor cell output shows the model-comparison progress bar:
constructing the session already runs the full comparison, whose outcome
is stored in the session and only read back by summarise and
best_result. -/

/-- A comparison session: it owns the outcome of the comparison run at
construction time. -/
structure AESession where
  results : Except (List (ℕ × List ErrorKind)) (List TrialRecord)

/-- The default session seed. -/
def default_seed : ℕ := 42

/-- The default number of tuner trials per combination. -/
def default_trials : ℕ := 3

/-- The results list of a comparison outcome (empty on aggregate
failure). -/
def results_list
    (e : Except (List (ℕ × List ErrorKind)) (List TrialRecord)) :
    List TrialRecord :=
  match e with
  | .ok rs => rs
  | .error _ => []

/-- Constructing an AutoEmulate session runs the full comparison during
construction and stores its outcome. -/
def autoemulate_mk (d : Dataset) (m : List Combination)
    (seed : ℕ := default_seed) (n : ℕ := default_trials) : AESession :=
  ⟨compare d m seed n⟩

/-- summarise reads the stored comparison results back. -/
def summarise (s : AESession) : List TrialRecord :=
  results_list s.results

/-- best_result returns the rank-0 stored result. -/
def best_result (s : AESession) : Option TrialRecord :=
  (summarise s).head?

/-- C10: a session constructed with default arguments already holds the
outcome of the full comparison, so summarise and best_result return the
(ranked) results of the comparison without any explicit call to compare, and
whenever the comparison run at construction succeeded its stored result
list is nonempty. -/
theorem autoemulate_mk_runs_compare (d : Dataset) (m : List Combination) :
    (autoemulate_mk d m).results = compare d m default_seed default_trials ∧
    summarise (autoemulate_mk d m) =
      results_list (compare d m default_seed default_trials) ∧
    best_result (autoemulate_mk d m) =
      (results_list (compare d m default_seed default_trials)).head? ∧
    (∀ rs, compare d m default_seed default_trials = .ok rs → rs ≠ []) := by
  refine ⟨rfl, rfl, rfl, ?_⟩
  intro rs hrs
  unfold compare at hrs
  by_cases h : (combo_oks d m default_seed default_trials).isEmpty = true
  · rw [if_pos h] at hrs
    exact Except.noConfusion hrs
  · rw [if_neg h] at hrs
    simp only [Except.ok.injEq] at hrs
    intro hnil
    apply h
    rw [List.isEmpty_iff]
    have hperm := List.perm_insertionSort sort_le
      (combo_oks d m default_seed default_trials)
    rw [← hrs] at hnil
    have hnil2 : List.insertionSort sort_le
        (combo_oks d m default_seed default_trials) = [] := hnil
    rw [hnil2] at hperm
    exact hperm.symm.eq_nil

/-- C10 witness: a session constructed (with the default seed and trial
count) over a manifest whose one combination always fits; the stored
results are the comparison outcome and they are nonempty. -/
theorem autoemulate_mk_runs_compare_witness :
    (autoemulate_mk [] [cokW]).results =
      compare [] [cokW] default_seed default_trials ∧
    summarise (autoemulate_mk [] [cokW]) =
      results_list (compare [] [cokW] default_seed default_trials) ∧
    best_result (autoemulate_mk [] [cokW]) =
      (results_list (compare [] [cokW] default_seed default_trials)).head? ∧
    rank_results (combo_oks [] [cokW] default_seed default_trials) ≠ [] := by
  obtain ⟨h1, h2, h3, h4⟩ := autoemulate_mk_runs_compare [] [cokW]
  refine ⟨h1, h2, h3, ?_⟩
  obtain ⟨rok, hrok, _⟩ := combo_result_ok_of_allok cokW
    (fun ds cfg => ⟨fun v => v, rfl⟩) (train_split default_seed [])
    (test_split default_seed []) (cv_fit_fold default_seed [])
    (cv_hold_fold default_seed []) default_seed default_trials
    (by norm_num [default_trials])
  have hrmem : rok ∈ combo_oks [] [cokW] default_seed default_trials := by
    rw [combo_oks, List.mem_filterMap]
    refine ⟨(cokW.id, combo_result cokW (train_split default_seed [])
      (test_split default_seed []) (cv_fit_fold default_seed [])
      (cv_hold_fold default_seed []) default_seed default_trials), ?_, ?_⟩
    · rw [combo_outcomes, List.mem_map]
      exact ⟨cokW, by simp, rfl⟩
    · rw [hrok]
      rfl
  have hne : (combo_oks [] [cokW] default_seed default_trials).isEmpty
      = false := by
    rcases he : (combo_oks [] [cokW] default_seed default_trials).isEmpty
    · rfl
    · exact absurd (List.isEmpty_iff.mp he ▸ hrmem) (List.not_mem_nil rok)
  have hcomp : compare [] [cokW] default_seed default_trials =
      .ok (rank_results (combo_oks [] [cokW] default_seed default_trials)) := by
    unfold compare
    rw [hne]
    rfl
  exact h4 _ hcomp

end AutoEmulateSpec
